import Mathlib

/-!
Shallow embedding of the rule-evaluation engine in `fizzbuzz_core.py`:
the rule data model, the primality and Fibonacci helpers, the single-number
evaluator `process_number` with its classifier `get_result_type`, and the
batch driver `generate_fizzbuzz_batch`.  Python integers are embedded as
`Int`, the Fibonacci membership set as `Finset ℤ`, the raised `ValueError`s
as `Except String`, and the invocations of the optional progress callback as
the list of percentage arguments (in `ℚ`) passed to it, in order.
-/

/-- The closed set of rule kinds (`class BlockType(Enum)`). -/
inductive BlockType where
  | DIVISOR
  | PRIME
  | FIBONACCI
  | RANGE
deriving DecidableEq, BEq, Repr

/-- The kind-specific property bag of a rule.  The Python original is an
untyped dict; the evaluator assumes a validated bag (spec §4.3), so the bag is
embedded as a record holding the union of the keys the evaluator reads
(`divisor`, `word`, `start`, `end`), each kind reading only its own fields. -/
structure Properties where
  divisor : Int
  word : String
  start : Int
  «end» : Int
deriving DecidableEq, Repr

/-- Embeds `@dataclass class RuleBlock`. -/
structure RuleBlock where
  id : String
  block_type : BlockType
  name : String
  properties : Properties
  order : Int
deriving DecidableEq, Repr

/-- Embeds `@dataclass class FizzBuzzResult`. -/
structure FizzBuzzResult where
  number : Int
  text : String
  result_type : String
  matching_blocks : List RuleBlock
deriving DecidableEq, Repr

/-- Embeds `is_prime(n)`: trial division by the odd numbers produced by
`range(3, int(math.sqrt(n)) + 1, 2)`, embedded as
`List.range' 3 ((Nat.sqrt n.toNat - 1) / 2) 2` (same elements:
3, 5, … up to `Nat.sqrt n.toNat`). -/
def is_prime (n : Int) : Bool :=
  if n < 2 then false
  else if n = 2 then true
  else if n % 2 = 0 then false
  else (List.range' 3 ((Nat.sqrt n.toNat - 1) / 2) 2).all fun i => n % (i : Int) != 0

/-- The `while b <= max_value` loop of `generate_fibonacci_set`, with explicit
fuel.  Each iteration adds `b` and steps `(a, b)` to `(b, a + b)`; since `b`
strictly increases once `a ≥ 1`, `max_value.toNat + 1` units of fuel are enough
for the loop to run to its real exit condition (proved below). -/
def fibLoop (max_value : Int) : Nat → Nat → Nat → Finset ℤ
  | _, _, 0 => ∅
  | a, b, fuel + 1 =>
    if (b : ℤ) ≤ max_value then insert (b : ℤ) (fibLoop max_value b (a + b) fuel) else ∅

/-- Embeds `generate_fibonacci_set(max_value)`: the set `{1}` seeded before the loop,
united with everything the loop adds. -/
def generate_fibonacci_set (max_value : Int) : Finset ℤ :=
  if max_value < 1 then ∅
  else insert (1 : ℤ) (fibLoop max_value 1 1 (max_value.toNat + 1))

/-- The per-kind match test inlined in the `for block in sorted(blocks, ...)`
loop of `process_number`. -/
def blockMatches (number : Int) (fibonacci_set : Finset ℤ) (block : RuleBlock) : Bool :=
  match block.block_type with
  | .DIVISOR => number % block.properties.divisor == 0
  | .PRIME => is_prime number
  | .FIBONACCI => decide (number ∈ fibonacci_set)
  | .RANGE => decide (block.properties.start ≤ number ∧ number ≤ block.properties.«end»)

/-- Insert a block into an already-sorted list, after every block whose order
is strictly smaller; with `sortBlocks` this is a stable insertion sort,
embedding Python's stable `sorted(blocks, key=lambda b: b.order)`. -/
def insertBlock (b : RuleBlock) : List RuleBlock → List RuleBlock
  | [] => [b]
  | c :: cs => if c.order < b.order then c :: insertBlock b cs else b :: c :: cs

/-- Stable insertion sort by ascending `order`. -/
def sortBlocks : List RuleBlock → List RuleBlock
  | [] => []
  | b :: bs => insertBlock b (sortBlocks bs)

/-- Embeds `get_result_type(result_parts, matching_blocks)`.  The Python
`elif len(matching_blocks) == 1` branch reads `matching_blocks[0]`; the
final `else` computes `fizz_blocks`/`buzz_blocks` by filtering. -/
def get_result_type (result_parts : List String) (matching_blocks : List RuleBlock) : String :=
  if result_parts.isEmpty then "number"
  else
    match matching_blocks with
    | [block] =>
      match block.block_type with
      | .DIVISOR =>
        if block.properties.word = "Fizz" then "Fizz"
        else if block.properties.word = "Buzz" then "Buzz"
        else "divisor_custom"
      | .PRIME => "Prime"
      | .FIBONACCI => "Fib"
      | .RANGE => "range_custom"
    | _ =>
      let fizz_blocks := matching_blocks.filter fun b =>
        b.block_type == .DIVISOR && b.properties.word == "Fizz"
      let buzz_blocks := matching_blocks.filter fun b =>
        b.block_type == .DIVISOR && b.properties.word == "Buzz"
      if !fizz_blocks.isEmpty && !buzz_blocks.isEmpty then "FizzBuzz" else "combination"

/-- Embeds `process_number(number, blocks, fibonacci_set=None)`: the default `None`
is the `none` of the `Option` argument, replaced by the empty set; the loop
over the sorted blocks accumulates `result_parts` and `matching_blocks` by
appending, embedded as a left fold. -/
def process_number (number : Int) (blocks : List RuleBlock)
    (fibonacci_set : Option (Finset ℤ)) : FizzBuzzResult :=
  let fib := fibonacci_set.getD ∅
  let rp := (sortBlocks blocks).foldl
    (fun (acc : List String × List RuleBlock) block =>
      if blockMatches number fib block then
        (acc.1 ++ [block.properties.word], acc.2 ++ [block])
      else acc)
    ([], [])
  let result_parts := rp.1
  let matching_blocks := rp.2
  let final_text := if result_parts.isEmpty then toString number else String.join result_parts
  { number := number
    text := final_text
    result_type := get_result_type result_parts matching_blocks
    matching_blocks := matching_blocks }

/-- The `for i, number in enumerate(range(start, end + 1))` loop of
`generate_fizzbuzz_batch`, over the list of offsets `i`; produces the result
list and the sequence of percentages handed to the progress callback. -/
def batchLoop (start : Int) (blocks : List RuleBlock) (fibonacci_set : Finset ℤ)
    (total_numbers : Nat) : List Nat → List FizzBuzzResult × List ℚ
  | [] => ([], [])
  | i :: rest =>
    let result := process_number (start + (i : Int)) blocks (some fibonacci_set)
    let tail := batchLoop start blocks fibonacci_set total_numbers rest
    if (i + 1) % 50 = 0 ∨ i = total_numbers - 1 then
      (result :: tail.1, ((i : ℚ) + 1) / (total_numbers : ℚ) * 100 :: tail.2)
    else
      (result :: tail.1, tail.2)

/-- Embeds `generate_fizzbuzz_batch(start, end, blocks, progress_callback)`: the three
`ValueError`s become `Except.error` with the source's messages; on success the
pair of the result list and the progress-callback percentages is returned. -/
def generate_fizzbuzz_batch (start «end» : Int) (blocks : List RuleBlock) :
    Except String (List FizzBuzzResult × List ℚ) :=
  if blocks.isEmpty then .error "No blocks defined"
  else if start ≥ «end» then .error "Start must be less than end"
  else if start < 1 then .error "Start must be at least 1"
  else
    let fibonacci_set :=
      if blocks.any (fun b => b.block_type == .FIBONACCI) then generate_fibonacci_set «end»
      else ∅
    let total_numbers := («end» - start + 1).toNat
    .ok (batchLoop start blocks fibonacci_set total_numbers (List.range total_numbers))

/-! ### Helper lemmas about `is_prime` -/

/-- The odd trial divisors scanned by `is_prime` are exactly the odd numbers
between 3 and `m` inclusive. -/
lemma mem_oddRange (m i : ℕ) :
    i ∈ List.range' 3 ((m - 1) / 2) 2 ↔ 3 ≤ i ∧ i % 2 = 1 ∧ i ≤ m := by
  rw [List.mem_range']
  constructor
  · rintro ⟨j, hj, rfl⟩
    omega
  · rintro ⟨h3, hodd, hle⟩
    exact ⟨(i - 3) / 2, by omega, by omega⟩

lemma emod_natCast_eq_zero_iff (i : ℕ) (n : ℤ) : n % (i : ℤ) = 0 ↔ (i : ℤ) ∣ n :=
  ⟨Int.dvd_of_emod_eq_zero, Int.emod_eq_zero_of_dvd⟩

/-- In the odd branch, `is_prime` is exactly the trial-division scan. -/
lemma is_prime_odd_branch (n : ℤ) (h2 : 2 < n) (hodd : n % 2 = 1) :
    is_prime n = ((List.range' 3 ((Nat.sqrt n.toNat - 1) / 2) 2).all
      fun i => n % (i : ℤ) != 0) := by
  unfold is_prime
  rw [if_neg (by omega), if_neg (by omega), if_neg (by omega)]

/-- Soundness and completeness of the trial division in `is_prime`. -/
lemma is_prime_true_iff (n : ℤ) : is_prime n = true ↔ ∃ p : ℕ, p.Prime ∧ n = (p : ℤ) := by
  by_cases h1 : n < 2
  · unfold is_prime
    rw [if_pos h1]
    simp only [Bool.false_eq_true, false_iff]
    rintro ⟨p, hp, rfl⟩
    have := hp.two_le
    omega
  · by_cases h2 : n = 2
    · subst h2
      simp only [true_iff, show is_prime 2 = true from rfl]
      exact ⟨2, Nat.prime_two, rfl⟩
    · by_cases h3 : n % 2 = 0
      · unfold is_prime
        rw [if_neg h1, if_neg h2, if_pos h3]
        simp only [Bool.false_eq_true, false_iff]
        rintro ⟨p, hp, rfl⟩
        have hdvd : (2 : ℤ) ∣ (p : ℤ) := Int.dvd_of_emod_eq_zero h3
        have hdvd' : 2 ∣ p := by exact_mod_cast hdvd
        rcases (hp.eq_one_or_self_of_dvd 2 hdvd') with h | h
        · omega
        · omega
      · have hodd : n % 2 = 1 := by omega
        have h2' : 2 < n := by omega
        rw [is_prime_odd_branch n h2' hodd, List.all_eq_true]
        have hN : n = (n.toNat : ℤ) := by omega
        constructor
        · intro hall
          refine ⟨n.toNat, ?_, hN⟩
          rw [Nat.prime_def_le_sqrt]
          refine ⟨by omega, fun m hm2 hms hdvd => ?_⟩
          rcases Nat.even_or_odd m with he | ho
          · obtain ⟨t, rfl⟩ := he
            have h2N : 2 ∣ n.toNat := dvd_trans ⟨t, by ring⟩ hdvd
            omega
          · have hm3 : 3 ≤ m ∧ m % 2 = 1 := by rcases ho with ⟨t, rfl⟩; omega
            have hmem := hall m ((mem_oddRange (Nat.sqrt n.toNat) m).mpr
              ⟨hm3.1, hm3.2, hms⟩)
            rw [bne_iff_ne] at hmem
            apply hmem
            rw [emod_natCast_eq_zero_iff, hN]
            exact_mod_cast hdvd
        · rintro ⟨p, hp, rfl⟩ i hi
          rw [mem_oddRange] at hi
          rw [bne_iff_ne]
          intro h0
          rw [emod_natCast_eq_zero_iff] at h0
          have hip : i ∣ p := by exact_mod_cast h0
          have htn : ((p : ℤ)).toNat = p := by omega
          exact (Nat.prime_def_le_sqrt.mp hp).2 i (by omega) (htn ▸ hi.2.2) hip

/-! ### Helper lemmas about `generate_fibonacci_set` -/

/-- Fibonacci numbers grow at least linearly; this bounds the number of loop
iterations, showing the fuel passed by `generate_fibonacci_set` suffices. -/
lemma le_fib_add_one (j : ℕ) : j ≤ Nat.fib j + 1 := by
  induction j using Nat.strong_induction_on with
  | _ j ih =>
    match j with
    | 0 => decide
    | 1 => decide
    | 2 => decide
    | m + 3 =>
      have h1 : 0 < Nat.fib (m + 1) := Nat.fib_pos.mpr (by omega)
      have h2 := ih (m + 2) (by omega)
      have h3 : Nat.fib (m + 3) = Nat.fib (m + 1) + Nat.fib (m + 2) := Nat.fib_add_two
      omega

/-- Everything the loop collects is a Fibonacci number bounded by the cap. -/
lemma mem_fibLoop_sound (max_value : ℤ) :
    ∀ (fuel k : ℕ), 1 ≤ k → ∀ m : ℤ,
      m ∈ fibLoop max_value (Nat.fib k) (Nat.fib (k + 1)) fuel →
      m ≤ max_value ∧ ∃ j : ℕ, 1 ≤ j ∧ (Nat.fib j : ℤ) = m := by
  intro fuel
  induction fuel with
  | zero =>
    intro k hk m hm
    simp [fibLoop] at hm
  | succ fuel ih =>
    intro k hk m hm
    simp only [fibLoop] at hm
    split_ifs at hm with hb
    · rcases Finset.mem_insert.mp hm with rfl | hm'
      · exact ⟨hb, k + 1, by omega, rfl⟩
      · rw [show Nat.fib k + Nat.fib (k + 1) = Nat.fib (k + 1 + 1) from Nat.fib_add_two.symm]
          at hm'
        exact ih (k + 1) (by omega) m hm'
    · simp at hm

/-- Every Fibonacci number below the cap is collected, given enough fuel. -/
lemma mem_fibLoop_complete (max_value : ℤ) :
    ∀ (fuel k j : ℕ), 1 ≤ k → k + 1 ≤ j → (Nat.fib j : ℤ) ≤ max_value → j - k ≤ fuel →
      (Nat.fib j : ℤ) ∈ fibLoop max_value (Nat.fib k) (Nat.fib (k + 1)) fuel := by
  intro fuel
  induction fuel with
  | zero =>
    intro k j hk hj hle hfuel
    omega
  | succ fuel ih =>
    intro k j hk hj hle hfuel
    have hmono : Nat.fib (k + 1) ≤ Nat.fib j := Nat.fib_mono hj
    have hb : (Nat.fib (k + 1) : ℤ) ≤ max_value :=
      le_trans (by exact_mod_cast hmono) hle
    simp only [fibLoop]
    rw [if_pos hb]
    by_cases hjk : j = k + 1
    · subst hjk
      exact Finset.mem_insert_self _ _
    · apply Finset.mem_insert_of_mem
      rw [show Nat.fib k + Nat.fib (k + 1) = Nat.fib (k + 1 + 1) from Nat.fib_add_two.symm]
      exact ih (k + 1) j (by omega) (by omega) hle (by omega)

/-- Membership characterization of `generate_fibonacci_set`: exactly the
Fibonacci numbers (of the sequence 1, 1, 2, 3, 5, 8, …) not exceeding the cap,
and the empty set when the cap is below 1. -/
lemma mem_generate_fibonacci_set (max_value : ℤ) (m : ℤ) :
    m ∈ generate_fibonacci_set max_value ↔
      1 ≤ max_value ∧ m ≤ max_value ∧ ∃ k : ℕ, 1 ≤ k ∧ (Nat.fib k : ℤ) = m := by
  unfold generate_fibonacci_set
  split_ifs with h
  · simp only [Finset.not_mem_empty, false_iff]
    rintro ⟨h1, -, -⟩
    omega
  · rw [Finset.mem_insert]
    constructor
    · rintro (rfl | hm)
      · exact ⟨by omega, by omega, 1, le_rfl, by simp⟩
      · have hm' : m ∈ fibLoop max_value (Nat.fib 1) (Nat.fib (1 + 1)) (max_value.toNat + 1) := by
          simpa [Nat.fib_one, Nat.fib_two] using hm
        have hs := mem_fibLoop_sound max_value (max_value.toNat + 1) 1 le_rfl m hm'
        exact ⟨by omega, hs.1, hs.2⟩
    · rintro ⟨h1, hm, j, hj, rfl⟩
      by_cases hj1 : j = 1
      · subst hj1
        left
        simp
      · right
        have hfib : Nat.fib j ≤ max_value.toNat := by omega
        have hfuel : j - 1 ≤ max_value.toNat + 1 := by
          have := le_fib_add_one j
          omega
        have hc := mem_fibLoop_complete max_value (max_value.toNat + 1) 1 j le_rfl
          (by omega) hm hfuel
        simpa [Nat.fib_one, Nat.fib_two] using hc

/-! ### Helper lemmas about `sortBlocks` and `process_number` -/

lemma mem_insertBlock (b c : RuleBlock) (l : List RuleBlock) :
    c ∈ insertBlock b l ↔ c = b ∨ c ∈ l := by
  induction l with
  | nil => simp [insertBlock]
  | cons d ds ih =>
    simp only [insertBlock]
    split_ifs with h
    · simp only [List.mem_cons, ih]
      tauto
    · simp only [List.mem_cons]

lemma insertBlock_perm (b : RuleBlock) (l : List RuleBlock) :
    (insertBlock b l).Perm (b :: l) := by
  induction l with
  | nil => simp [insertBlock]
  | cons c cs ih =>
    simp only [insertBlock]
    split_ifs with h
    · exact (ih.cons c).trans (List.Perm.swap b c cs)
    · exact List.Perm.refl _

lemma sortBlocks_perm (l : List RuleBlock) : (sortBlocks l).Perm l := by
  induction l with
  | nil => exact List.Perm.refl _
  | cons b bs ih => exact (insertBlock_perm b (sortBlocks bs)).trans (ih.cons b)

lemma pairwise_insertBlock (b : RuleBlock) (l : List RuleBlock)
    (hl : l.Pairwise fun x y => x.order ≤ y.order) :
    (insertBlock b l).Pairwise fun x y => x.order ≤ y.order := by
  induction l with
  | nil => simp [insertBlock]
  | cons c cs ih =>
    rw [List.pairwise_cons] at hl
    simp only [insertBlock]
    split_ifs with h
    · rw [List.pairwise_cons]
      refine ⟨fun d hd => ?_, ih hl.2⟩
      rcases (mem_insertBlock b d cs).mp hd with rfl | hdc
      · omega
      · exact hl.1 d hdc
    · rw [List.pairwise_cons]
      refine ⟨fun d hd => ?_, List.pairwise_cons.mpr hl⟩
      rcases List.mem_cons.mp hd with rfl | hd'
      · omega
      · have := hl.1 d hd'
        omega

lemma sortBlocks_pairwise (l : List RuleBlock) :
    (sortBlocks l).Pairwise fun x y => x.order ≤ y.order := by
  induction l with
  | nil => simp [sortBlocks]
  | cons b bs ih => exact pairwise_insertBlock b (sortBlocks bs) ih

/-- Stability of the insertion: the blocks of any fixed `order` are untouched. -/
lemma filter_insertBlock (b : RuleBlock) (l : List RuleBlock) (k : ℤ) :
    (insertBlock b l).filter (fun c => c.order == k)
      = ((b :: l).filter fun c => c.order == k) := by
  induction l with
  | nil => rfl
  | cons c cs ih =>
    simp only [insertBlock]
    split_ifs with h
    · by_cases hbk : b.order = k
      · have hck : ¬c.order = k := by omega
        simp [List.filter_cons, hbk, hck, ih]
      · simp [List.filter_cons, hbk, ih]
    · rfl

/-- Stability of the sort: the blocks of any fixed `order` keep their original
relative positions. -/
lemma filter_sortBlocks (l : List RuleBlock) (k : ℤ) :
    (sortBlocks l).filter (fun c => c.order == k) = (l.filter fun c => c.order == k) := by
  induction l with
  | nil => rfl
  | cons b bs ih =>
    simp only [sortBlocks]
    rw [filter_insertBlock]
    simp [List.filter_cons, ih]

/-- The accumulator loop of `process_number` collects exactly the words and the
blocks of the matching rules, in the processed order. -/
lemma process_foldl (number : ℤ) (fib : Finset ℤ) (l : List RuleBlock)
    (acc : List String × List RuleBlock) :
    l.foldl
      (fun acc block =>
        if blockMatches number fib block then
          (acc.1 ++ [block.properties.word], acc.2 ++ [block])
        else acc)
      acc
      = (acc.1 ++ ((l.filter (blockMatches number fib)).map fun b => b.properties.word),
         acc.2 ++ l.filter (blockMatches number fib)) := by
  induction l generalizing acc with
  | nil => simp
  | cons b bs ih =>
    simp only [List.foldl_cons, List.filter_cons]
    by_cases hb : blockMatches number fib b = true
    · rw [if_pos hb, ih]
      simp [hb]
    · rw [if_neg hb, ih]
      simp [hb]

lemma process_number_matching_blocks_eq (number : ℤ) (blocks : List RuleBlock)
    (fs : Option (Finset ℤ)) :
    (process_number number blocks fs).matching_blocks
      = (sortBlocks blocks).filter (blockMatches number (fs.getD ∅)) := by
  simp only [process_number]
  rw [process_foldl]
  simp

lemma process_number_number_eq (number : ℤ) (blocks : List RuleBlock)
    (fs : Option (Finset ℤ)) :
    (process_number number blocks fs).number = number := rfl

lemma process_number_text_eq (number : ℤ) (blocks : List RuleBlock)
    (fs : Option (Finset ℤ)) :
    (process_number number blocks fs).text
      = if (process_number number blocks fs).matching_blocks = [] then toString number
        else String.join
          ((process_number number blocks fs).matching_blocks.map fun b => b.properties.word) := by
  rw [process_number_matching_blocks_eq]
  simp only [process_number]
  rw [process_foldl]
  simp only [List.nil_append]
  rcases h : (sortBlocks blocks).filter (blockMatches number (fs.getD ∅)) with _ | ⟨c, cs⟩
  · simp
  · simp

lemma process_number_result_type_eq (number : ℤ) (blocks : List RuleBlock)
    (fs : Option (Finset ℤ)) :
    (process_number number blocks fs).result_type
      = get_result_type
          ((process_number number blocks fs).matching_blocks.map fun b => b.properties.word)
          (process_number number blocks fs).matching_blocks := by
  rw [process_number_matching_blocks_eq]
  simp only [process_number]
  rw [process_foldl]
  simp only [List.nil_append]

lemma filter_isEmpty_eq_not_any {α : Type} (p : α → Bool) (l : List α) :
    (l.filter p).isEmpty = !l.any p := by
  induction l with
  | nil => rfl
  | cons a as ih =>
    rw [List.filter_cons, List.any_cons]
    cases h : p a
    · simpa using ih
    · simp

/-! ### Helper lemmas about `generate_fizzbuzz_batch` -/

lemma batchLoop_fst (start : ℤ) (blocks : List RuleBlock) (fibonacci_set : Finset ℤ)
    (total_numbers : ℕ) (l : List ℕ) :
    (batchLoop start blocks fibonacci_set total_numbers l).1
      = l.map fun (i : ℕ) => process_number (start + (i : ℤ)) blocks (some fibonacci_set) := by
  induction l with
  | nil => rfl
  | cons i rest ih =>
    simp only [batchLoop]
    split_ifs with h <;> simp [ih]

lemma batchLoop_snd (start : ℤ) (blocks : List RuleBlock) (fibonacci_set : Finset ℤ)
    (total_numbers : ℕ) (l : List ℕ) :
    (batchLoop start blocks fibonacci_set total_numbers l).2
      = l.filterMap fun (i : ℕ) =>
          if (i + 1) % 50 = 0 ∨ i = total_numbers - 1 then
            some (((i : ℚ) + 1) / (total_numbers : ℚ) * 100)
          else none := by
  induction l with
  | nil => rfl
  | cons i rest ih =>
    simp only [batchLoop, List.filterMap_cons]
    split_ifs with h <;> simp [ih]

/-- On valid input the batch driver succeeds, its results being the evaluator
mapped over the range offsets and its progress reports the filtered
percentages. -/
lemma generate_fizzbuzz_batch_ok (start «end» : ℤ) (blocks : List RuleBlock)
    (h1 : 1 ≤ start) (h2 : start < «end») (h3 : blocks ≠ []) :
    generate_fizzbuzz_batch start «end» blocks =
      .ok
        ((List.range («end» - start + 1).toNat).map fun (i : ℕ) =>
            process_number (start + (i : ℤ)) blocks
              (some (if blocks.any (fun b => b.block_type == .FIBONACCI)
                     then generate_fibonacci_set «end» else ∅)),
          (List.range («end» - start + 1).toNat).filterMap fun (i : ℕ) =>
            if (i + 1) % 50 = 0 ∨ i = («end» - start + 1).toNat - 1 then
              some (((i : ℚ) + 1) / ((«end» - start + 1).toNat : ℚ) * 100)
            else none) := by
  simp only [generate_fizzbuzz_batch]
  rw [if_neg (by simpa [List.isEmpty_iff] using h3), if_neg (by omega), if_neg (by omega)]
  exact congrArg Except.ok (Prod.ext (batchLoop_fst _ _ _ _ _) (batchLoop_snd _ _ _ _ _))

/-! ### The claims -/

/-- C1: for every integer `n`, rule list and Fibonacci set, the matched rules
of `process_number` are exactly the rules, taken in ascending `order` with ties
broken by original relative position (stable sort), whose kind-specific
condition holds for `n`: a divisor-rule iff `n % divisor = 0`, a prime-rule iff
`is_prime n`, a fibonacci-rule iff `n` is in the supplied set, a range-rule iff
`start ≤ n ≤ end`. -/
theorem process_number_matched_rules_spec (number : ℤ) (blocks : List RuleBlock)
    (fibSet : Finset ℤ) :
    ((process_number number blocks (some fibSet)).matching_blocks
        = (sortBlocks blocks).filter (blockMatches number fibSet))
    ∧ (sortBlocks blocks).Pairwise (fun a b => a.order ≤ b.order)
    ∧ (sortBlocks blocks).Perm blocks
    ∧ (∀ k : ℤ, (sortBlocks blocks).filter (fun c => c.order == k)
        = blocks.filter fun c => c.order == k)
    ∧ (∀ block : RuleBlock, blockMatches number fibSet block = true ↔
        match block.block_type with
        | .DIVISOR => number % block.properties.divisor = 0
        | .PRIME => is_prime number = true
        | .FIBONACCI => number ∈ fibSet
        | .RANGE => block.properties.start ≤ number ∧ number ≤ block.properties.«end») := by
  refine ⟨?_, sortBlocks_pairwise blocks, sortBlocks_perm blocks,
    fun k => filter_sortBlocks blocks k, fun block => ?_⟩
  · rw [process_number_matching_blocks_eq]
    rfl
  · cases h : block.block_type <;> simp [blockMatches, h]

/-- C2: the display text of `process_number` is the concatenation of the words
of the matched rules in evaluation order, and the decimal form of `n` when
nothing matched; in particular rules `[divisor(3,"A") order=1,
divisor(5,"B") order=0]` at `n = 15` give the text `"BA"`. -/
theorem process_number_text_spec (number : ℤ) (blocks : List RuleBlock) (fibSet : Finset ℤ) :
    ((process_number number blocks (some fibSet)).text
      = if (process_number number blocks (some fibSet)).matching_blocks = []
        then toString number
        else String.join ((process_number number blocks (some fibSet)).matching_blocks.map
          fun b => b.properties.word))
    ∧ (process_number 15
        [⟨"a", .DIVISOR, "rule A", ⟨3, "A", 0, 0⟩, 1⟩,
         ⟨"b", .DIVISOR, "rule B", ⟨5, "B", 0, 0⟩, 0⟩]
        (some ∅)).text = "BA" := by
  exact ⟨process_number_text_eq number blocks (some fibSet), by decide⟩

/-- C3: the classification of `process_number` is `number` with no match; with
exactly one match it is derived from the rule's kind (with exact string
comparison of a divisor-rule's `word` against `"Fizz"`/`"Buzz"`); with two or
more matches it is `FizzBuzz` when a `"Fizz"` divisor-rule and a `"Buzz"`
divisor-rule both matched, else `combination`. -/
theorem process_number_result_type_spec (number : ℤ) (blocks : List RuleBlock)
    (fibSet : Finset ℤ) :
    (process_number number blocks (some fibSet)).result_type
      = match (process_number number blocks (some fibSet)).matching_blocks with
        | [] => "number"
        | [block] =>
          match block.block_type with
          | .DIVISOR =>
            if block.properties.word = "Fizz" then "Fizz"
            else if block.properties.word = "Buzz" then "Buzz"
            else "divisor_custom"
          | .PRIME => "Prime"
          | .FIBONACCI => "Fib"
          | .RANGE => "range_custom"
        | ms =>
          if (ms.any fun b => b.block_type == .DIVISOR && b.properties.word == "Fizz")
              && (ms.any fun b => b.block_type == .DIVISOR && b.properties.word == "Buzz")
          then "FizzBuzz" else "combination" := by
  rw [process_number_result_type_eq]
  generalize (process_number number blocks (some fibSet)).matching_blocks = ms
  rcases ms with _ | ⟨b, _ | ⟨c, rest⟩⟩
  · rfl
  · simp [get_result_type]
  · simp only [get_result_type, List.map_cons, List.isEmpty_cons, Bool.false_eq_true,
      if_false]
    rw [filter_isEmpty_eq_not_any, filter_isEmpty_eq_not_any, Bool.not_not, Bool.not_not]

/-- C4: on valid input (`start ≥ 1`, `start < end`, non-empty rules) the batch
driver returns `end - start + 1` results, the `i`-th being the evaluator at
`start + i` with the Fibonacci set built from `end` exactly when a
fibonacci-rule is present; the numbers are ascending from `start` to `end`. -/
theorem generate_fizzbuzz_batch_results_spec (start «end» : ℤ) (blocks : List RuleBlock)
    (h1 : 1 ≤ start) (h2 : start < «end») (h3 : blocks ≠ []) :
    ∃ results progress,
      generate_fizzbuzz_batch start «end» blocks = .ok (results, progress)
      ∧ results.length = («end» - start + 1).toNat
      ∧ (∀ (i : ℕ) (h : i < results.length),
          results[i] = process_number (start + (i : ℤ)) blocks
            (some (if blocks.any (fun b => b.block_type == .FIBONACCI)
                   then generate_fibonacci_set «end» else ∅)))
      ∧ (∀ (i : ℕ) (h : i < results.length), (results[i]).number = start + (i : ℤ))
      ∧ (results.map FizzBuzzResult.number).head? = some start
      ∧ (results.map FizzBuzzResult.number).getLast? = some «end»
      ∧ (results.map FizzBuzzResult.number).Pairwise (· < ·) := by
  refine ⟨_, _, generate_fizzbuzz_batch_ok start «end» blocks h1 h2 h3, ?_, ?_, ?_, ?_, ?_, ?_⟩
  · simp
  · intro i h
    simp only [List.getElem_map]
    rw [List.getElem_range]
  · intro i h
    simp only [List.getElem_map]
    rw [List.getElem_range]
    rfl
  · obtain ⟨M, hM⟩ : ∃ M, («end» - start + 1).toNat = M + 1 := ⟨(«end» - start + 1).toNat - 1, by omega⟩
    rw [hM, List.range_succ_eq_map]
    simp [process_number_number_eq]
  · obtain ⟨M, hM⟩ : ∃ M, («end» - start + 1).toNat = M + 1 := ⟨(«end» - start + 1).toNat - 1, by omega⟩
    rw [hM, List.range_succ, List.map_append, List.map_append, List.map_singleton,
      List.map_singleton, List.getLast?_concat]
    rw [process_number_number_eq]
    congr 1
    omega
  · rw [List.map_map, List.pairwise_map]
    apply List.Pairwise.imp ?_ (List.pairwise_lt_range _)
    intro a b hab
    simp only [Function.comp_apply, process_number_number_eq]
    omega

/-- C4 witness. -/
theorem generate_fizzbuzz_batch_results_spec_witness :
    (1 : ℤ) ≤ 1 ∧ (1 : ℤ) < 100
    ∧ ([⟨"a", BlockType.DIVISOR, "rule A", ⟨3, "Fizz", 0, 0⟩, 0⟩] : List RuleBlock) ≠ []
    ∧ (∃ results progress,
        generate_fizzbuzz_batch 1 100 [⟨"a", BlockType.DIVISOR, "rule A", ⟨3, "Fizz", 0, 0⟩, 0⟩]
          = .ok (results, progress)
        ∧ results.length = ((100 : ℤ) - 1 + 1).toNat
        ∧ (∀ (i : ℕ) (h : i < results.length),
            results[i] = process_number (1 + (i : ℤ))
              [⟨"a", BlockType.DIVISOR, "rule A", ⟨3, "Fizz", 0, 0⟩, 0⟩]
              (some (if ([⟨"a", BlockType.DIVISOR, "rule A", ⟨3, "Fizz", 0, 0⟩, 0⟩] :
                        List RuleBlock).any (fun b => b.block_type == .FIBONACCI)
                     then generate_fibonacci_set 100 else ∅)))
        ∧ (∀ (i : ℕ) (h : i < results.length), (results[i]).number = 1 + (i : ℤ))
        ∧ (results.map FizzBuzzResult.number).head? = some 1
        ∧ (results.map FizzBuzzResult.number).getLast? = some 100
        ∧ (results.map FizzBuzzResult.number).Pairwise (· < ·)) :=
  ⟨by norm_num, by norm_num, by simp,
    generate_fizzbuzz_batch_results_spec 1 100 _ (by norm_num) (by norm_num) (by simp)⟩

/-- C5: the batch driver fails with a validation error exactly when the rule
list is empty, `start ≥ end`, or `start < 1`; the embedding returns `Except`,
so an error excludes any partial result list by construction. -/
theorem generate_fizzbuzz_batch_error_spec (start «end» : ℤ) (blocks : List RuleBlock) :
    (∃ msg, generate_fizzbuzz_batch start «end» blocks = .error msg)
      ↔ blocks = [] ∨ start ≥ «end» ∨ start < 1 := by
  simp only [generate_fizzbuzz_batch]
  split_ifs with ha hb hc
  · exact iff_of_true ⟨_, rfl⟩ (Or.inl (List.isEmpty_iff.mp ha))
  · exact iff_of_true ⟨_, rfl⟩ (Or.inr (Or.inl hb))
  · exact iff_of_true ⟨_, rfl⟩ (Or.inr (Or.inr hc))
  · apply iff_of_false
    · rintro ⟨msg, hmsg⟩
      simp at hmsg
    · rintro (h | h | h)
      · exact ha (by simp [h])
      · exact hb h
      · exact hc h

/-- C6: with valid input, the progress callback fires exactly at the counts
that are positive multiples of 50 and after the final number, each time with
the percentage `count / total * 100`, always in `(0, 100]`; the final report is
`100`, and a range shorter than 50 gets exactly the one final report. -/
theorem generate_fizzbuzz_batch_progress_spec (start «end» : ℤ) (blocks : List RuleBlock)
    (h1 : 1 ≤ start) (h2 : start < «end») (h3 : blocks ≠ []) :
    ∃ results progress,
      generate_fizzbuzz_batch start «end» blocks = .ok (results, progress)
      ∧ progress = ((List.range («end» - start + 1).toNat).filterMap fun (i : ℕ) =>
          if (i + 1) % 50 = 0 ∨ i + 1 = («end» - start + 1).toNat then
            some (((i : ℚ) + 1) / ((«end» - start + 1).toNat : ℚ) * 100)
          else none)
      ∧ (∀ q ∈ progress, 0 < q ∧ q ≤ 100)
      ∧ progress.getLast? = some 100
      ∧ ((«end» - start + 1).toNat < 50 → progress = [100]) := by
  have hN : 2 ≤ («end» - start + 1).toNat := by omega
  refine ⟨_, _, generate_fizzbuzz_batch_ok start «end» blocks h1 h2 h3, ?_, ?_, ?_, ?_⟩
  · refine List.filterMap_congr fun i hi => ?_
    have := List.mem_range.mp hi
    exact if_congr (by omega) rfl rfl
  · intro q hq
    obtain ⟨i, hi, hfi⟩ := List.mem_filterMap.mp hq
    have hiN := List.mem_range.mp hi
    split_ifs at hfi with hc
    · obtain rfl : ((i : ℚ) + 1) / ((«end» - start + 1).toNat : ℚ) * 100 = q :=
        Option.some_injective _ hfi
      have hNpos : (0 : ℚ) < (((«end» - start + 1).toNat : ℕ) : ℚ) :=
        Nat.cast_pos.mpr (by omega)
      constructor
      · positivity
      · have hle : ((i : ℚ) + 1) ≤ (((«end» - start + 1).toNat : ℕ) : ℚ) := by
          exact_mod_cast (by omega : i + 1 ≤ («end» - start + 1).toNat)
        calc ((i : ℚ) + 1) / ((«end» - start + 1).toNat : ℚ) * 100
            ≤ 1 * 100 := by
              apply mul_le_mul_of_nonneg_right _ (by norm_num)
              exact (div_le_one hNpos).mpr hle
          _ = 100 := by norm_num
  · obtain ⟨M, hM⟩ : ∃ M, («end» - start + 1).toNat = M + 1 := ⟨(«end» - start + 1).toNat - 1, by omega⟩
    rw [show List.range (((«end» - start + 1).toNat)) = List.range M ++ [M] from by
      rw [hM, List.range_succ], List.filterMap_append]
    have hlast : (List.filterMap (fun i =>
        if (i + 1) % 50 = 0 ∨ i = («end» - start + 1).toNat - 1 then
          some (((i : ℚ) + 1) / ((«end» - start + 1).toNat : ℚ) * 100)
        else none) [M]) = [100] := by
      rw [List.filterMap_cons, if_pos (Or.inr (by omega))]
      have : ((M : ℚ) + 1) / ((«end» - start + 1).toNat : ℚ) * 100 = 100 := by
        rw [hM]
        push_cast
        rw [div_self (by positivity), one_mul]
      rw [this]
      rfl
    rw [hlast, List.getLast?_concat]
  · intro h50
    obtain ⟨M, hM⟩ : ∃ M, («end» - start + 1).toNat = M + 1 := ⟨(«end» - start + 1).toNat - 1, by omega⟩
    rw [show List.range (((«end» - start + 1).toNat)) = List.range M ++ [M] from by
      rw [hM, List.range_succ], List.filterMap_append]
    have hnil : (List.filterMap (fun i =>
        if (i + 1) % 50 = 0 ∨ i = («end» - start + 1).toNat - 1 then
          some (((i : ℚ) + 1) / ((«end» - start + 1).toNat : ℚ) * 100)
        else none) (List.range M)) = [] := by
      rw [List.filterMap_eq_nil_iff]
      intro a ha
      have := List.mem_range.mp ha
      rw [if_neg (by omega)]
    have hlast : (List.filterMap (fun i =>
        if (i + 1) % 50 = 0 ∨ i = («end» - start + 1).toNat - 1 then
          some (((i : ℚ) + 1) / ((«end» - start + 1).toNat : ℚ) * 100)
        else none) [M]) = [100] := by
      rw [List.filterMap_cons, if_pos (Or.inr (by omega))]
      have : ((M : ℚ) + 1) / ((«end» - start + 1).toNat : ℚ) * 100 = 100 := by
        rw [hM]
        push_cast
        rw [div_self (by positivity), one_mul]
      rw [this]
      rfl
    rw [hnil, hlast]
    rfl

/-- C6 witness. -/
theorem generate_fizzbuzz_batch_progress_spec_witness :
    (1 : ℤ) ≤ 1 ∧ (1 : ℤ) < 10
    ∧ ([⟨"a", BlockType.DIVISOR, "rule A", ⟨3, "Fizz", 0, 0⟩, 0⟩] : List RuleBlock) ≠ []
    ∧ (∃ results progress,
        generate_fizzbuzz_batch 1 10 [⟨"a", BlockType.DIVISOR, "rule A", ⟨3, "Fizz", 0, 0⟩, 0⟩]
          = .ok (results, progress)
        ∧ progress = ((List.range ((10 : ℤ) - 1 + 1).toNat).filterMap fun (i : ℕ) =>
            if (i + 1) % 50 = 0 ∨ i + 1 = ((10 : ℤ) - 1 + 1).toNat then
              some (((i : ℚ) + 1) / (((10 : ℤ) - 1 + 1).toNat : ℚ) * 100)
            else none)
        ∧ (∀ q ∈ progress, 0 < q ∧ q ≤ 100)
        ∧ progress.getLast? = some 100
        ∧ (((10 : ℤ) - 1 + 1).toNat < 50 → progress = [100])) :=
  ⟨by norm_num, by norm_num, by simp,
    generate_fizzbuzz_batch_progress_spec 1 10 _ (by norm_num) (by norm_num) (by simp)⟩

/-- C7: `is_prime` decides primality: false below 2, true at 2, false for even
numbers above 2, and for odd `n > 2` false exactly when an odd divisor between
3 and `√n` exists. -/
theorem is_prime_spec (n : ℤ) :
    (is_prime n = true ↔ ∃ p : ℕ, p.Prime ∧ n = (p : ℤ))
    ∧ (n < 2 → is_prime n = false)
    ∧ is_prime 2 = true
    ∧ (2 < n → n % 2 = 0 → is_prime n = false)
    ∧ (2 < n → n % 2 = 1 →
        (is_prime n = false ↔
          ∃ d : ℕ, 3 ≤ d ∧ d % 2 = 1 ∧ d ≤ Nat.sqrt n.toNat ∧ (d : ℤ) ∣ n)) := by
  refine ⟨is_prime_true_iff n, ?_, rfl, ?_, ?_⟩
  · intro h
    unfold is_prime
    rw [if_pos h]
  · intro h2 h0
    unfold is_prime
    rw [if_neg (by omega), if_neg (by omega), if_pos h0]
  · intro h2 hodd
    rw [is_prime_odd_branch n h2 hodd]
    rw [Bool.eq_false_iff, Ne, List.all_eq_true]
    push_neg
    constructor
    · rintro ⟨i, hi, hne⟩
      rw [mem_oddRange] at hi
      simp only [ne_eq, bne_iff_ne, not_not] at hne
      exact ⟨i, hi.1, hi.2.1, hi.2.2, (emod_natCast_eq_zero_iff i n).mp hne⟩
    · rintro ⟨d, h3, hodd', hsqrt, hdvd⟩
      refine ⟨d, (mem_oddRange _ d).mpr ⟨h3, hodd', hsqrt⟩, ?_⟩
      simp only [ne_eq, bne_iff_ne, not_not]
      exact (emod_natCast_eq_zero_iff d n).mpr hdvd

/-- C7 witness. -/
theorem is_prime_spec_witness :
    is_prime 7 = true ∧ is_prime (-3) = false ∧ is_prime 10 = false ∧ is_prime 91 = false :=
  ⟨(is_prime_spec 7).1.mpr ⟨7, by norm_num, rfl⟩,
   (is_prime_spec (-3)).2.1 (by norm_num),
   (is_prime_spec 10).2.2.2.1 (by norm_num) (by decide),
   (is_prime_spec 91).2.2.2.2 (by norm_num) (by decide) |>.mpr
     ⟨7, by norm_num, by norm_num, Nat.le_sqrt.mpr (by norm_num), by decide⟩⟩

/-- C8: `generate_fibonacci_set` is the set of Fibonacci numbers of the
sequence 1, 1, 2, 3, 5, 8, … not exceeding the cap, empty below 1, with the
three concrete values of the spec. -/
theorem generate_fibonacci_set_spec (max_value : ℤ) :
    (∀ m : ℤ, m ∈ generate_fibonacci_set max_value ↔
        1 ≤ max_value ∧ m ≤ max_value ∧ ∃ k : ℕ, 1 ≤ k ∧ (Nat.fib k : ℤ) = m)
    ∧ generate_fibonacci_set 0 = ∅
    ∧ generate_fibonacci_set 1 = {1}
    ∧ generate_fibonacci_set 10 = {1, 2, 3, 5, 8} :=
  ⟨fun m => mem_generate_fibonacci_set max_value m, by decide, by decide, by decide⟩

/-- C9: `process_number` is deterministic: two results obtained from identical
inputs agree in every field. -/
theorem process_number_deterministic_spec (number : ℤ) (blocks : List RuleBlock)
    (fibSet : Option (Finset ℤ)) (r1 r2 : FizzBuzzResult)
    (h1 : r1 = process_number number blocks fibSet)
    (h2 : r2 = process_number number blocks fibSet) :
    r1.number = r2.number ∧ r1.text = r2.text ∧ r1.result_type = r2.result_type
      ∧ r1.matching_blocks = r2.matching_blocks := by
  subst h1
  subst h2
  exact ⟨rfl, rfl, rfl, rfl⟩

/-- C9 witness. -/
theorem process_number_deterministic_spec_witness :
    (process_number 3 [] none).number = (process_number 3 [] none).number
    ∧ (process_number 3 [] none).text = (process_number 3 [] none).text
    ∧ (process_number 3 [] none).result_type = (process_number 3 [] none).result_type
    ∧ (process_number 3 [] none).matching_blocks = (process_number 3 [] none).matching_blocks :=
  process_number_deterministic_spec 3 [] none _ _ rfl rfl

/-- C10: omitting the Fibonacci set (Python's `None` default) behaves exactly
like supplying the empty set, so no fibonacci-rule can match. -/
theorem process_number_default_fib_spec (number : ℤ) (blocks : List RuleBlock) :
    process_number number blocks none = process_number number blocks (some ∅)
    ∧ ∀ b ∈ (process_number number blocks none).matching_blocks,
        b.block_type ≠ BlockType.FIBONACCI := by
  refine ⟨rfl, fun b hb => ?_⟩
  rw [process_number_matching_blocks_eq] at hb
  have hmatch := List.of_mem_filter hb
  intro hft
  simp [blockMatches, hft] at hmatch

/-- C10 witness. -/
theorem process_number_default_fib_spec_witness :
    process_number 13 [⟨"f", BlockType.FIBONACCI, "fib rule", ⟨0, "Fib", 0, 0⟩, 0⟩] none
      = process_number 13 [⟨"f", BlockType.FIBONACCI, "fib rule", ⟨0, "Fib", 0, 0⟩, 0⟩]
          (some ∅) :=
  (process_number_default_fib_spec 13
    [⟨"f", BlockType.FIBONACCI, "fib rule", ⟨0, "Fib", 0, 0⟩, 0⟩]).1
